import Mathlib

/-!
Verification development for the plugeth network plugins repository.

The reward engine (`GetRewards`, `EthashBlockReward`, the ECIP-1017 era
path) and the generic LRU container (`BasicLRU`) are embedded shallowly:
Go `math/big` integers become `ℤ`, and Go's `big.Int.Div`/`Mod` (Euclidean
division and modulus) become `Int`'s `/` and `%` (which are `Int.ediv` and
`Int.emod` here).  Block headers are reduced to their `Number` field, the
only field the reward code reads.  The fork configurator is consumed purely
through its interface (`IsEnabled` oracles, the reward-schedule map as an
arbitrarily ordered association list, the era-rounds getter), mirroring how
the source consumes it.

A second, heap-passing embedding (the `...H` definitions at the end of the
definition section) transcribes the same reward functions at the level of
individual `big.Int` allocations, reads and writes, in order to settle the
frame claim that no reward computation mutates its base-reward argument.
-/

namespace Plugeth

/-- Go global `big8` from the rewards file. -/
def big8 : ℤ := 8

/-- Go global `big32` from the rewards file. -/
def big32 : ℤ := 32

/-- From `classic/main.go`: `DisinflationRateQuotient = big.NewInt(4)`. -/
def DisinflationRateQuotient : ℤ := 4

/-- From `classic/main.go`: `DisinflationRateDivisor = big.NewInt(5)`. -/
def DisinflationRateDivisor : ℤ := 5

/-- Modelled from the spec: the Frontier base block-reward constant is
referenced by the rewards file but defined outside the provided sources;
the spec calls it the "base (Frontier)" fallback constant.  Its concrete
value (5 ether) is immaterial to every theorem below. -/
def FrontierBlockReward : ℤ := 5000000000000000000

/-- Modelled from the spec: the EIP-649 (Byzantium) block-reward constant,
referenced but not defined in the provided sources.  Value immaterial. -/
def EIP649FBlockReward : ℤ := 3000000000000000000

/-- Modelled from the spec: the EIP-1234 (Constantinople) block-reward
constant, referenced but not defined in the provided sources.  Value
immaterial. -/
def EIP1234FBlockReward : ℤ :=  2000000000000000000

/-- Go `z.Exp(x, y, nil)`: returns `1` when the exponent is negative and
the modulus is nil, otherwise ordinary exponentiation. -/
def zexp (x y : ℤ) : ℤ := if y < 0 then 1 else x ^ y.toNat

/-- A block header, reduced to the single field the reward code reads. -/
structure Header where
  number : ℤ

/-- The fork configurator, modelled at its consumed interface: the
`IsEnabled` predicate composed with each transition getter becomes one
boolean oracle on the block number; the reward schedule map (Go
`map[uint64]*big.Int`) becomes an association list in an arbitrary
enumeration order; the era-rounds getter (whose returned pointer the era
path dereferences unconditionally) becomes a plain natural number. -/
structure PluginConfigurator where
  isEnabledECIP1017 : ℤ → Bool
  isEnabledEIP1234 : ℤ → Bool
  isEnabledEIP649 : ℤ → Bool
  getEthashBlockRewardSchedule : List (ℕ × ℤ)
  getEthashECIP1017EraRounds : ℕ

/-- One iteration of the schedule walk in `EthashBlockReward`: the
accumulator holds `(lastActivation, blockReward)`; an entry is taken when
its activation is `<= n.Uint64()` and `>= lastActivation`. -/
def schedStep (nU : ℕ) (acc : ℕ × ℤ) (p : ℕ × ℤ) : ℕ × ℤ :=
  if p.1 ≤ nU then (if acc.1 ≤ p.1 then p else acc) else acc

/-- `EthashBlockReward` after the nil checks: EIP-1234, then EIP-649, then
the schedule walk, then the Frontier fallback.  `n.Uint64()` is modelled by
`n.toNat`, which agrees with the Go conversion exactly when
`0 ≤ n < 2^64`. -/
def EthashBlockRewardCore (c : PluginConfigurator) (n : ℤ) : ℤ :=
  if c.isEnabledEIP1234 n then EIP1234FBlockReward
  else if c.isEnabledEIP649 n then EIP649FBlockReward
  else if 0 < c.getEthashBlockRewardSchedule.length then
    (c.getEthashBlockRewardSchedule.foldl (schedStep n.toNat)
      (0, FrontierBlockReward)).2
  else FrontierBlockReward

/-- `EthashBlockReward(c, n)` with the leading nil checks: a nil
configurator or nil block number yields the Frontier constant. -/
def EthashBlockReward : Option PluginConfigurator → Option ℤ → ℤ
  | some c, some n => EthashBlockRewardCore c n
  | _, _ => FrontierBlockReward

/-- `GetBlockEra(blockNum, eraLength)`, transcribed statement by
statement: `Sign() < 1` guards the zero case, then
`remainder := (blockNum - 1) mod eraLength`, `base := blockNum - remainder`,
`d := base div eraLength`, `dremainder := d mod 1`, result `d - dremainder`.
Go `Div`/`Mod` are Euclidean, i.e. `Int`'s `/` and `%` here. -/
def GetBlockEra (blockNum eraLength : ℤ) : ℤ :=
  if Int.sign blockNum < 1 then 0
  else
    let remainder := (blockNum - 1) % eraLength
    let base := blockNum - remainder
    let d := base / eraLength
    let dremainder := d % 1
    d - dremainder

/-- `GetBlockWinnerRewardByEra`: a copy of the reward in era 0, else
`blockReward * 4^era / 5^era` with one Euclidean division. -/
def GetBlockWinnerRewardByEra (era blockReward : ℤ) : ℤ :=
  if era = 0 then blockReward
  else
    let q := zexp DisinflationRateQuotient era
    let d := zexp DisinflationRateDivisor era
    (blockReward * q) / d

/-- `getEraUncleBlockReward`: the winner reward divided by 32. -/
def getEraUncleBlockReward (era blockReward : ℤ) : ℤ :=
  GetBlockWinnerRewardByEra era blockReward / big32

/-- `GetBlockUncleRewardByEra`: the flat distance formula in era 0, else
the shared per-uncle reward. -/
def GetBlockUncleRewardByEra (era : ℤ) (header uncle : Header)
    (blockReward : ℤ) : ℤ :=
  if era = 0 then ((uncle.number + big8 - header.number) * blockReward) / big8
  else getEraUncleBlockReward era blockReward

/-- `GetBlockWinnerRewardForUnclesByEra`: accumulates one per-uncle bonus
per included uncle, starting from zero. -/
def GetBlockWinnerRewardForUnclesByEra (era : ℤ) (uncles : List Header)
    (blockReward : ℤ) : ℤ :=
  uncles.foldl (fun r _ => r + getEraUncleBlockReward era blockReward) 0

/-- `ecip1017BlockReward`: era from the configured era rounds, winner
reward plus accumulated uncle bonuses, and the per-uncle rewards. -/
def ecip1017BlockReward (config : PluginConfigurator) (header : Header)
    (uncles : List Header) : ℤ × List ℤ :=
  let blockReward := FrontierBlockReward
  let eraLen := config.getEthashECIP1017EraRounds
  let era := GetBlockEra header.number (eraLen : ℤ)
  let wr := GetBlockWinnerRewardByEra era blockReward
  let wurs := GetBlockWinnerRewardForUnclesByEra era uncles blockReward
  let wr2 := wr + wurs
  let uncleRewards :=
    uncles.map (fun uncle => GetBlockUncleRewardByEra era header uncle blockReward)
  (wr2, uncleRewards)

/-- The body of the flat-path uncle loop in `GetRewards`: the reused
scratch `r` computes the uncle reward, a copy is recorded, and the miner
bonus `blockReward / 32` is accumulated into the running reward. -/
def getRewardsStep (blockReward headerNum : ℤ) (acc : ℤ × List ℤ)
    (uncle : Header) : ℤ × List ℤ :=
  let r1 := uncle.number + big8
  let r2 := r1 - headerNum
  let r3 := r2 * blockReward
  let r4 := r3 / big8
  let r5 := blockReward / big32
  (acc.1 + r5, r4 :: acc.2)

/-- `GetRewards`: the era path when the ECIP-1017 transition is enabled at
the header's number, otherwise the flat path (uncle rewards are collected
in loop order). -/
def GetRewards (config : PluginConfigurator) (header : Header)
    (uncles : List Header) : ℤ × List ℤ :=
  if config.isEnabledECIP1017 header.number then
    ecip1017BlockReward config header uncles
  else
    let blockReward := EthashBlockReward (some config) (some header.number)
    let acc := uncles.foldl (getRewardsStep blockReward header.number)
      (blockReward, ([] : List ℤ))
    (acc.1, acc.2.reverse)

/-- `list.appendTo(slice)`: the source loop walks the intrusive list from
`root.prev` following `prev` pointers, i.e. from the tail (least recently
used) to the front, appending each element to the given slice; on the
front-first abstract order this appends the reversed order. -/
def listAppendTo {T : Type} (l : List T) (slice : List T) : List T :=
  slice ++ l.reverse

/-- `BasicLRU`: the map plus intrusive recency list, abstracted as one
association list in recency order with the most recently used entry first
(the source's `root.next` side) and the least recently used entry last
(`root.prev`).  `cap` is the normalized capacity. -/
structure BasicLRU (K V : Type) where
  entries : List (K × V)
  cap : ℕ

/-- `NewBasicLRU(capacity)`: a capacity `<= 0` is coerced to 1. -/
def NewBasicLRU (K V : Type) (capacity : ℤ) : BasicLRU K V :=
  { entries := [], cap := if capacity ≤ 0 then 1 else capacity.toNat }

/-- `Len()`: the number of entries in the map. -/
def BasicLRU.Len {K V : Type} (c : BasicLRU K V) : ℕ := c.entries.length

/-- `Contains(key)`: map membership. -/
def BasicLRU.Contains {K V : Type} [DecidableEq K] (c : BasicLRU K V)
    (key : K) : Bool :=
  c.entries.any (fun p => p.1 == key)

/-- `Add(key, value)`: replace-and-move-to-front on a hit; otherwise evict
the tail when at capacity (reusing its slot) and push the new entry to the
front. -/
def BasicLRU.Add {K V : Type} [DecidableEq K] (c : BasicLRU K V) (key : K)
    (value : V) : Bool × BasicLRU K V :=
  if c.entries.any (fun p => p.1 == key) then
    (false, { c with entries := (key, value) :: c.entries.eraseP (fun p => p.1 == key) })
  else if c.cap ≤ c.Len then
    (true, { c with entries := (key, value) :: c.entries.dropLast })
  else
    (false, { c with entries := (key, value) :: c.entries })

/-- `Get(key)`: a hit moves the entry to the front. -/
def BasicLRU.Get {K V : Type} [DecidableEq K] (c : BasicLRU K V) (key : K) :
    Option V × BasicLRU K V :=
  match c.entries.find? (fun p => p.1 == key) with
  | none => (none, c)
  | some p =>
    (some p.2, { c with entries := (key, p.2) :: c.entries.eraseP (fun q => q.1 == key) })

/-- `Peek(key)`: lookup without a recency update. -/
def BasicLRU.Peek {K V : Type} [DecidableEq K] (c : BasicLRU K V) (key : K) :
    Option V :=
  (c.entries.find? (fun p => p.1 == key)).map Prod.snd

/-- `GetOldest()`: the tail of the recency list, without a recency
update. -/
def BasicLRU.GetOldest {K V : Type} (c : BasicLRU K V) : Option (K × V) :=
  c.entries.getLast?

/-- `Remove(key)`: drop the entry if present. -/
def BasicLRU.Remove {K V : Type} [DecidableEq K] (c : BasicLRU K V)
    (key : K) : Bool × BasicLRU K V :=
  if c.entries.any (fun p => p.1 == key) then
    (true, { c with entries := c.entries.eraseP (fun p => p.1 == key) })
  else (false, c)

/-- `RemoveOldest()`: drop the tail of the recency list. -/
def BasicLRU.RemoveOldest {K V : Type} (c : BasicLRU K V) :
    Option (K × V) × BasicLRU K V :=
  match c.entries.getLast? with
  | none => (none, c)
  | some p => (some p, { c with entries := c.entries.dropLast })

/-- `Purge()`: empty the container. -/
def BasicLRU.Purge {K V : Type} (c : BasicLRU K V) : BasicLRU K V :=
  { c with entries := [] }

/-- `Keys()`: `appendTo` over a fresh slice. -/
def BasicLRU.Keys {K V : Type} (c : BasicLRU K V) : List K :=
  listAppendTo (c.entries.map Prod.fst) []

/-- One operation of the `BasicLRU` interface, for stating invariants over
arbitrary call sequences. -/
inductive LRUOp (K V : Type) where
  | add : K → V → LRUOp K V
  | get : K → LRUOp K V
  | peek : K → LRUOp K V
  | remove : K → LRUOp K V
  | removeOldest : LRUOp K V
  | purge : LRUOp K V

/-- State transition of one `BasicLRU` operation (`Peek` leaves the state
unchanged). -/
def applyLRUOp {K V : Type} [DecidableEq K] (c : BasicLRU K V) :
    LRUOp K V → BasicLRU K V
  | .add k v => (c.Add k v).2
  | .get k => (c.Get k).2
  | .peek _ => c
  | .remove k => (c.Remove k).2
  | .removeOldest => c.RemoveOldest.2
  | .purge => c.Purge

/-- Run a sequence of `BasicLRU` operations. -/
def runLRUOps {K V : Type} [DecidableEq K] (ops : List (LRUOp K V))
    (c : BasicLRU K V) : BasicLRU K V :=
  ops.foldl applyLRUOp c

/-!
Heap-passing embedding.  A `Heap` is a store of `big.Int` cells addressed
by natural numbers, with a bump allocator.  Each Go statement on `big.Int`
values becomes an explicit read, write or allocation, so that the frame
claim — reward computations never mutate the base-reward cell — is about
the same mutations the source performs.
-/

/-- A store of `big.Int` cells with a bump allocator. -/
structure Heap where
  mem : ℕ → ℤ
  next : ℕ

/-- Read the value of a cell. -/
def hread (s : Heap) (r : ℕ) : ℤ := s.mem r

/-- Write a cell in place (a Go method call with this cell as receiver). -/
def hwrite (s : Heap) (r : ℕ) (v : ℤ) : Heap :=
  { mem := fun x => if x = r then v else s.mem x, next := s.next }

/-- Allocate a fresh cell holding `v` (Go `new(big.Int)` / `big.NewInt`,
fused with the write that a chained method call performs on it). -/
def halloc (s : Heap) (v : ℤ) : ℕ × Heap :=
  (s.next, { mem := fun x => if x = s.next then v else s.mem x, next := s.next + 1 })

/-- Cell of the Go global `big8`. -/
def big8Ref : ℕ := 0

/-- Cell of the Go global `big32`. -/
def big32Ref : ℕ := 1

/-- Cell of the Go global `DisinflationRateQuotient`. -/
def disinflationRateQuotientRef : ℕ := 2

/-- Cell of the Go global `DisinflationRateDivisor`. -/
def disinflationRateDivisorRef : ℕ := 3

/-- Cell of the Go global `FrontierBlockReward`. -/
def frontierBlockRewardRef : ℕ := 4

/-- Cell of the Go global `EIP1234FBlockReward`. -/
def eip1234FBlockRewardRef : ℕ := 5

/-- Cell of the Go global `EIP649FBlockReward`. -/
def eip649FBlockRewardRef : ℕ := 6

/-- The configurator for the heap embedding: schedule values are cells. -/
structure PluginConfiguratorH where
  isEnabledECIP1017 : ℤ → Bool
  isEnabledEIP1234 : ℤ → Bool
  isEnabledEIP649 : ℤ → Bool
  schedule : List (ℕ × ℕ)
  eraRounds : ℕ

/-- Heap transcription of `GetBlockWinnerRewardByEra`: the `Cmp` against a
fresh `big.NewInt(0)`, then either `new(big.Int).Set(blockReward)` or the
`q`, `d`, `r` triple with `Exp`, `Exp`, `Mul`, `Div`. -/
def GetBlockWinnerRewardByEraH (s : Heap) (era blockReward : ℕ) : ℕ × Heap :=
  let a0 := halloc s 0
  let zeroRef := a0.1
  let s1 := a0.2
  if hread s1 era = hread s1 zeroRef then
    halloc s1 (hread s1 blockReward)
  else
    let a1 := halloc s1 0
    let q := a1.1
    let a2 := halloc a1.2 0
    let d := a2.1
    let a3 := halloc a2.2 0
    let r := a3.1
    let s4 := a3.2
    let s5 := hwrite s4 q (zexp (hread s4 disinflationRateQuotientRef) (hread s4 era))
    let s6 := hwrite s5 d (zexp (hread s5 disinflationRateDivisorRef) (hread s5 era))
    let s7 := hwrite s6 r (hread s6 blockReward * hread s6 q)
    let s8 := hwrite s7 r (hread s7 r / hread s7 d)
    (r, s8)

/-- Heap transcription of `getEraUncleBlockReward`:
`new(big.Int).Div(GetBlockWinnerRewardByEra(era, blockReward), big32)`. -/
def getEraUncleBlockRewardH (s : Heap) (era blockReward : ℕ) : ℕ × Heap :=
  let ws := GetBlockWinnerRewardByEraH s era blockReward
  let w := ws.1
  let s1 := ws.2
  halloc s1 (hread s1 w / hread s1 big32Ref)

/-- Heap transcription of `GetBlockUncleRewardByEra`. -/
def GetBlockUncleRewardByEraH (s : Heap) (era headerNum uncleNum blockReward : ℕ) :
    ℕ × Heap :=
  let a0 := halloc s 0
  let zeroRef := a0.1
  let s1 := a0.2
  if hread s1 era = hread s1 zeroRef then
    let a1 := halloc s1 0
    let r := a1.1
    let s2 := a1.2
    let s3 := hwrite s2 r (hread s2 uncleNum + hread s2 big8Ref)
    let s4 := hwrite s3 r (hread s3 r - hread s3 headerNum)
    let s5 := hwrite s4 r (hread s4 r * hread s4 blockReward)
    let s6 := hwrite s5 r (hread s5 r / hread s5 big8Ref)
    (r, s6)
  else getEraUncleBlockRewardH s1 era blockReward

/-- The loop of `GetBlockWinnerRewardForUnclesByEra`: one
`r.Add(r, getEraUncleBlockReward(era, blockReward))` per uncle. -/
def winnerUnclesLoopH (era blockReward r : ℕ) : List ℕ → Heap → Heap
  | [], s => s
  | _ :: us, s =>
    let us1 := getEraUncleBlockRewardH s era blockReward
    let u := us1.1
    let s1 := us1.2
    let s2 := hwrite s1 r (hread s1 r + hread s1 u)
    winnerUnclesLoopH era blockReward r us s2

/-- Heap transcription of `GetBlockWinnerRewardForUnclesByEra`:
`r := big.NewInt(0)` then the accumulation loop. -/
def GetBlockWinnerRewardForUnclesByEraH (s : Heap) (era : ℕ) (uncles : List ℕ)
    (blockReward : ℕ) : ℕ × Heap :=
  let a0 := halloc s 0
  let r := a0.1
  let s1 := a0.2
  (r, winnerUnclesLoopH era blockReward r uncles s1)

/-- Heap transcription of `GetBlockEra` (each `big.NewInt` a fresh cell). -/
def GetBlockEraH (s : Heap) (blockNum eraLength : ℕ) : ℕ × Heap :=
  if Int.sign (hread s blockNum) < 1 then halloc s 0
  else
    let a1 := halloc s 1
    let one := a1.1
    let s1 := a1.2
    let a2 := halloc s1 (hread s1 blockNum - hread s1 one)
    let sub := a2.1
    let s2 := a2.2
    let a3 := halloc s2 (hread s2 sub % hread s2 eraLength)
    let remainder := a3.1
    let s3 := a3.2
    let a4 := halloc s3 (hread s3 blockNum - hread s3 remainder)
    let base := a4.1
    let s4 := a4.2
    let a5 := halloc s4 (hread s4 base / hread s4 eraLength)
    let d := a5.1
    let s5 := a5.2
    let a6 := halloc s5 1
    let one2 := a6.1
    let s6 := a6.2
    let a7 := halloc s6 (hread s6 d % hread s6 one2)
    let dremainder := a7.1
    let s7 := a7.2
    halloc s7 (hread s7 d - hread s7 dremainder)

/-- The per-uncle loop of `ecip1017BlockReward`, collecting the uncle
reward cells in order. -/
def ecipUncleLoopH (era headerNum blockReward : ℕ) : List ℕ → Heap → List ℕ × Heap
  | [], s => ([], s)
  | u :: us, s =>
    let urs1 := GetBlockUncleRewardByEraH s era headerNum u blockReward
    let ur := urs1.1
    let rest := ecipUncleLoopH era headerNum blockReward us urs1.2
    (ur :: rest.1, rest.2)

/-- Heap transcription of `ecip1017BlockReward`: the base reward is the
shared `FrontierBlockReward` cell; `wr.Add(wr, wurs)` mutates only the
freshly returned winner cell. -/
def ecip1017BlockRewardH (config : PluginConfiguratorH) (s : Heap)
    (headerNum : ℕ) (uncles : List ℕ) : (ℕ × List ℕ) × Heap :=
  let blockReward := frontierBlockRewardRef
  let a0 := halloc s (config.eraRounds : ℤ)
  let eraLenRef := a0.1
  let s1 := a0.2
  let eh := GetBlockEraH s1 headerNum eraLenRef
  let era := eh.1
  let s2 := eh.2
  let wh := GetBlockWinnerRewardByEraH s2 era blockReward
  let wr := wh.1
  let s3 := wh.2
  let uh := GetBlockWinnerRewardForUnclesByEraH s3 era uncles blockReward
  let wurs := uh.1
  let s4 := uh.2
  let s5 := hwrite s4 wr (hread s4 wr + hread s4 wurs)
  let lh := ecipUncleLoopH era headerNum blockReward uncles s5
  ((wr, lh.1), lh.2)

/-- Heap-level `EthashBlockReward`: performs no writes, only selects which
existing cell (a shared global or a schedule entry) serves as the block
reward. -/
def ethashBlockRewardRefH (c : PluginConfiguratorH) (s : Heap) (n : ℕ) : ℕ :=
  if c.isEnabledEIP1234 (hread s n) then eip1234FBlockRewardRef
  else if c.isEnabledEIP649 (hread s n) then eip649FBlockRewardRef
  else if 0 < c.schedule.length then
    (c.schedule.foldl
      (fun acc p =>
        if p.1 ≤ (hread s n).toNat then (if acc.1 ≤ p.1 then p else acc)
        else acc)
      (0, frontierBlockRewardRef)).2
  else frontierBlockRewardRef

/-- The flat-path uncle loop of `GetRewards`: the scratch cell `r` is
written four times for the uncle reward, copied into a fresh cell, then
reused for the miner bonus which is accumulated into `reward`. -/
def getRewardsLoopH (headerNum blockReward r reward : ℕ) :
    List ℕ → Heap → List ℕ × Heap
  | [], s => ([], s)
  | u :: us, s =>
    let s1 := hwrite s r (hread s u + hread s big8Ref)
    let s2 := hwrite s1 r (hread s1 r - hread s1 headerNum)
    let s3 := hwrite s2 r (hread s2 r * hread s2 blockReward)
    let s4 := hwrite s3 r (hread s3 r / hread s3 big8Ref)
    let a5 := halloc s4 (hread s4 r)
    let ur := a5.1
    let s5 := a5.2
    let s6 := hwrite s5 r (hread s5 blockReward / hread s5 big32Ref)
    let s7 := hwrite s6 reward (hread s6 reward + hread s6 r)
    let rest := getRewardsLoopH headerNum blockReward r reward us s7
    (ur :: rest.1, rest.2)

/-- Heap transcription of `GetRewards`. -/
def GetRewardsH (config : PluginConfiguratorH) (s : Heap) (headerNum : ℕ)
    (uncles : List ℕ) : (ℕ × List ℕ) × Heap :=
  if config.isEnabledECIP1017 (hread s headerNum) then
    ecip1017BlockRewardH config s headerNum uncles
  else
    let blockReward := ethashBlockRewardRefH config s headerNum
    let a0 := halloc s (hread s blockReward)
    let reward := a0.1
    let s1 := a0.2
    let a1 := halloc s1 0
    let r := a1.1
    let s2 := a1.2
    let lh := getRewardsLoopH headerNum blockReward r reward uncles s2
    ((reward, lh.1), lh.2)

/-- Frame relation: every cell below `n0` keeps its value, and the
allocator only moves forward. -/
def FrameFrom (n0 : ℕ) (s s2 : Heap) : Prop :=
  s.next ≤ s2.next ∧ ∀ x, x < n0 → s2.mem x = s.mem x

/-! Helper lemmas. -/

/-- Go `Sign() < 1` is exactly non-positivity. -/
theorem sign_lt_one_iff (n : ℤ) : Int.sign n < 1 ↔ n ≤ 0 := by
  rcases lt_trichotomy n 0 with h | rfl | h
  · rw [Int.sign_eq_neg_one_of_neg h]
    constructor <;> intro <;> omega
  · simp
  · rw [Int.sign_eq_one_of_pos h]
    constructor <;> intro <;> omega

/-- For a positive block number, `GetBlockEra` computes
`(n - (n - 1) % L) / L`. -/
theorem getBlockEra_of_pos (n L : ℤ) (hn : 1 ≤ n) :
    GetBlockEra n L = (n - (n - 1) % L) / L := by
  unfold GetBlockEra
  rw [if_neg (by rw [sign_lt_one_iff]; omega)]
  simp [Int.emod_one]

/-- For an era length of at least 2 and a positive block number,
`GetBlockEra` is the floor of `(n - 1) / L`. -/
theorem getBlockEra_eq_ediv (n L : ℤ) (hL : 2 ≤ L) (hn : 1 ≤ n) :
    GetBlockEra n L = (n - 1) / L := by
  rw [getBlockEra_of_pos n L hn]
  have key := Int.ediv_add_emod (n - 1) L
  have hrw : n - (n - 1) % L = 1 + L * ((n - 1) / L) := by omega
  rw [hrw, Int.add_mul_ediv_left 1 ((n - 1) / L) (by omega : L ≠ 0),
    Int.ediv_eq_zero_of_lt (by omega) (by omega)]
  omega

/-- `GetBlockWinnerRewardByEra` for a positive (natural) era. -/
theorem getBlockWinnerRewardByEra_of_pos (e : ℕ) (R : ℤ) (h : 1 ≤ e) :
    GetBlockWinnerRewardByEra (e : ℤ) R = (R * 4 ^ e) / 5 ^ e := by
  unfold GetBlockWinnerRewardByEra zexp
  rw [if_neg (by omega : ¬((e : ℤ) = 0))]
  simp only [DisinflationRateQuotient, DisinflationRateDivisor,
    if_neg (by omega : ¬((e : ℤ) < 0)), Int.toNat_natCast]

/-- If no schedule entry both qualifies (activation at most the target)
and reaches the accumulator's last activation, the walk leaves the
accumulator unchanged. -/
theorem schedFoldl_stay (nU : ℕ) : ∀ (l : List (ℕ × ℤ)) (acc : ℕ × ℤ),
    (∀ p ∈ l, ¬(p.1 ≤ nU ∧ acc.1 ≤ p.1)) →
    l.foldl (schedStep nU) acc = acc
  | [], _, _ => rfl
  | hd :: tl, acc, h => by
    have hhd := h hd (List.mem_cons_self hd tl)
    have hstep : schedStep nU acc hd = acc := by
      unfold schedStep
      split_ifs with h1 h2
      · exact absurd ⟨h1, h2⟩ hhd
      · rfl
      · rfl
    rw [List.foldl_cons, hstep]
    exact schedFoldl_stay nU tl acc fun p hp => h p (List.mem_cons_of_mem hd hp)

/-- With duplicate-free activation keys, the schedule walk ends at the
reward of the greatest qualifying activation, whatever the enumeration
order. -/
theorem schedFoldl_max (nU : ℕ) : ∀ (l : List (ℕ × ℤ)) (acc : ℕ × ℤ) (a : ℕ) (r : ℤ),
    (l.map Prod.fst).Nodup → (a, r) ∈ l → acc.1 ≤ a → a ≤ nU →
    (∀ p ∈ l, p.1 ≤ nU → p.1 ≤ a) →
    (l.foldl (schedStep nU) acc).2 = r
  | [], _, _, _, _, hmem, _, _, _ => absurd hmem (List.not_mem_nil _)
  | hd :: tl, acc, a, r, hnd, hmem, hacc, ha, hmax => by
    rw [List.map_cons, List.nodup_cons] at hnd
    rw [List.foldl_cons]
    rcases List.mem_cons.mp hmem with heq | htl
    · have hstep : schedStep nU acc hd = (a, r) := by
        rw [← heq]
        unfold schedStep
        rw [if_pos ha, if_pos hacc]
      have hstay : ∀ p ∈ tl, ¬(p.1 ≤ nU ∧ (a, r).1 ≤ p.1) := by
        intro p hp hcontra
        have hle : p.1 ≤ a := hmax p (List.mem_cons_of_mem hd hp) hcontra.1
        have hne : p.1 ≠ hd.1 := by
          intro hcon
          exact hnd.1 (hcon ▸ List.mem_map_of_mem Prod.fst hp)
        rw [← heq] at hne
        have := hcontra.2
        simp only at this hne
        omega
      rw [hstep, schedFoldl_stay nU tl (a, r) hstay]
    · have hacc2 : (schedStep nU acc hd).1 ≤ a := by
        unfold schedStep
        split_ifs with h1 h2
        · exact hmax hd (List.mem_cons_self hd tl) h1
        · exact hacc
        · exact hacc
      exact schedFoldl_max nU tl (schedStep nU acc hd) a r hnd.2 htl hacc2 ha
        fun p hp h2 => hmax p (List.mem_cons_of_mem hd hp) h2

/-- The schedule walk step commutes on entries with distinct activation
keys (or on an entry with itself). -/
theorem schedStep_comm (nU : ℕ) (x y : ℕ × ℤ) (hxy : x = y ∨ x.1 ≠ y.1)
    (z : ℕ × ℤ) :
    schedStep nU (schedStep nU z x) y = schedStep nU (schedStep nU z y) x := by
  rcases hxy with rfl | hne
  · rfl
  · unfold schedStep
    split_ifs <;> first | rfl | (exfalso; omega)

/-!
C8 — a nil configurator or nil block number yields the Frontier base
reward instead of failing.
-/

/-- C8: for every block number and configurator, `EthashBlockReward`
applied to a nil configurator or to a nil block number returns the
Frontier base reward (the function is total; there is no failure path). -/
theorem ethashBlockReward_nil_c8 (c : Option PluginConfigurator) (n : Option ℤ) :
    EthashBlockReward none n = FrontierBlockReward ∧
    EthashBlockReward c none = FrontierBlockReward := by
  constructor
  · cases n <;> rfl
  · cases c <;> rfl

/-!
C3 — `GetBlockWinnerRewardByEra` equals the base reward at era 0 and
`R * 4^e / 5^e` (numerator and denominator exponentiated exactly, then one
division) for `e ≥ 1`.  The claim calls the division truncating; the
source uses Go `Div`, which is Euclidean (floor for a positive divisor),
so the two agree exactly when the base reward is non-negative and differ
on negative base rewards.
-/

/-- C3 counterexample: at era 1 and base reward `-1` the code returns the
Euclidean quotient `-1`, while the claimed truncating division gives 0. -/
theorem winnerRewardByEra_c3_counterexample :
    GetBlockWinnerRewardByEra 1 (-1) = -1 ∧
    Int.tdiv ((-1) * 4 ^ 1) (5 ^ 1) = 0 ∧
    GetBlockWinnerRewardByEra 1 (-1) ≠ Int.tdiv ((-1) * 4 ^ 1) (5 ^ 1) := by
  refine ⟨by decide, by decide, by decide⟩

/-- C3 (amended): era 0 returns the base reward unchanged; for every era
`e ≥ 1` the result is `(R * 4^e) / 5^e` with exact integer exponentiation
of numerator and denominator before a single Euclidean division, which
coincides with truncating division whenever `R ≥ 0`; in particular era 1
gives `R * 4 / 5`. -/
theorem winnerRewardByEra_c3 (e : ℕ) (R : ℤ) :
    GetBlockWinnerRewardByEra 0 R = R ∧
    (1 ≤ e → GetBlockWinnerRewardByEra (e : ℤ) R = (R * 4 ^ e) / 5 ^ e) ∧
    (0 ≤ R → GetBlockWinnerRewardByEra (e : ℤ) R = Int.tdiv (R * 4 ^ e) (5 ^ e)) ∧
    GetBlockWinnerRewardByEra 1 R = (R * 4) / 5 := by
  refine ⟨by simp [GetBlockWinnerRewardByEra],
    fun h => getBlockWinnerRewardByEra_of_pos e R h, fun hR => ?_, ?_⟩
  · rw [Int.tdiv_eq_ediv (by positivity) (by positivity)]
    rcases Nat.eq_zero_or_pos e with rfl | he
    · simp [GetBlockWinnerRewardByEra]
    · exact getBlockWinnerRewardByEra_of_pos e R he
  · have h := getBlockWinnerRewardByEra_of_pos 1 R (by omega)
    simpa using h

/-- C3 witness: the amended theorem instantiated at era 2 and the Frontier
base reward, with both hypotheses discharged concretely. -/
theorem winnerRewardByEra_c3_witness :
    GetBlockWinnerRewardByEra (2 : ℕ) FrontierBlockReward =
      (FrontierBlockReward * 4 ^ 2) / 5 ^ 2 ∧
    GetBlockWinnerRewardByEra (2 : ℕ) FrontierBlockReward =
      Int.tdiv (FrontierBlockReward * 4 ^ 2) (5 ^ 2) :=
  ⟨(winnerRewardByEra_c3 2 FrontierBlockReward).2.1 (by decide),
   (winnerRewardByEra_c3 2 FrontierBlockReward).2.2.1 (by decide)⟩

/-!
C4 — `GetBlockEra` is 0 for non-positive block numbers and otherwise
`floor((n - 1) / L)`.  The floor formula holds for every era length
`L ≥ 2` but fails at `L = 1`, where the source's
`(n - (n-1) mod L) div L` evaluates to `n`.
-/

/-- C4 counterexample: with era length 1 the code maps block 1 to era 1,
while the claimed formula `floor((n-1)/L)` gives era 0 (so the claimed
particular `GetBlockEra(i, L) = 0` for `1 ≤ i ≤ L` also fails). -/
theorem getBlockEra_c4_counterexample :
    GetBlockEra 1 1 = 1 ∧ ((1 : ℤ) - 1) / 1 = 0 ∧
    GetBlockEra 1 1 ≠ ((1 : ℤ) - 1) / 1 := by
  refine ⟨by decide, by decide, by decide⟩

/-- C4 (amended): `GetBlockEra(n, L) = 0` whenever `n ≤ 0`; for every era
length `L ≥ 2`, `GetBlockEra(n, L) = floor((n-1)/L)` for `n ≥ 1`, so in
particular the era is 0 for `1 ≤ n ≤ L` and 1 at `n = L + 1`; at the
degenerate length `L = 1` the code instead returns `n` for every
`n ≥ 1`. -/
theorem getBlockEra_c4 (n L : ℤ) :
    (n ≤ 0 → GetBlockEra n L = 0) ∧
    (2 ≤ L → 1 ≤ n → GetBlockEra n L = (n - 1) / L) ∧
    (L = 1 → 1 ≤ n → GetBlockEra n L = n) ∧
    (2 ≤ L → 1 ≤ n → n ≤ L → GetBlockEra n L = 0) ∧
    (2 ≤ L → GetBlockEra (L + 1) L = 1) := by
  refine ⟨fun hn => ?_, fun hL hn => getBlockEra_eq_ediv n L hL hn,
    fun hL hn => ?_, fun hL hn hnL => ?_, fun hL => ?_⟩
  · unfold GetBlockEra
    rw [if_pos (by rw [sign_lt_one_iff]; omega)]
  · subst hL
    rw [getBlockEra_of_pos n 1 hn]
    simp [Int.emod_one, Int.ediv_one]
  · rw [getBlockEra_eq_ediv n L hL hn]
    exact Int.ediv_eq_zero_of_lt (by omega) (by omega)
  · rw [getBlockEra_eq_ediv (L + 1) L hL (by omega)]
    simpa using Int.ediv_self (by omega : L ≠ 0)

/-- C4 witness: the amended theorem instantiated at block 11 with era
length 5 (era 2) and at the era boundaries, hypotheses discharged
concretely. -/
theorem getBlockEra_c4_witness :
    GetBlockEra (-3) 5 = 0 ∧
    GetBlockEra 11 5 = ((11 : ℤ) - 1) / 5 ∧
    GetBlockEra 5 5 = 0 ∧
    GetBlockEra 6 5 = 1 :=
  ⟨(getBlockEra_c4 (-3) 5).1 (by decide),
   (getBlockEra_c4 11 5).2.1 (by decide) (by decide),
   (getBlockEra_c4 5 5).2.2.2.1 (by decide) (by decide) (by decide),
   (getBlockEra_c4 6 5).2.2.2.2 (by decide)⟩

/-!
C1 — `EthashBlockReward` precedence: EIP-1234 constant, else EIP-649
constant, else the reward of the greatest schedule activation at most the
block number (independently of the schedule's enumeration order), else the
Frontier base constant.
-/

/-- C1: for every configurator and every block number `n` with
`0 ≤ n < 2^64` (the range on which `n.Uint64()` is faithful) and
duplicate-free schedule keys: the EIP-1234 constant wins when that
transition is enabled at `n`, else the EIP-649 constant when enabled, else
the reward of the greatest schedule activation `≤ n` — the same value for
every enumeration order of the schedule — and the Frontier base constant
when no schedule entry qualifies. -/
theorem ethashBlockReward_c1 (c : PluginConfigurator) (n : ℤ)
    (h0 : 0 ≤ n) (h64 : n < 2 ^ 64)
    (hnd : (c.getEthashBlockRewardSchedule.map Prod.fst).Nodup) :
    (c.isEnabledEIP1234 n = true →
      EthashBlockReward (some c) (some n) = EIP1234FBlockReward) ∧
    (c.isEnabledEIP1234 n = false → c.isEnabledEIP649 n = true →
      EthashBlockReward (some c) (some n) = EIP649FBlockReward) ∧
    (c.isEnabledEIP1234 n = false → c.isEnabledEIP649 n = false →
      (∀ a r, (a, r) ∈ c.getEthashBlockRewardSchedule → (a : ℤ) ≤ n →
        (∀ p ∈ c.getEthashBlockRewardSchedule, (p.1 : ℤ) ≤ n → p.1 ≤ a) →
        EthashBlockReward (some c) (some n) = r) ∧
      ((∀ p ∈ c.getEthashBlockRewardSchedule, ¬((p.1 : ℤ) ≤ n)) →
        EthashBlockReward (some c) (some n) = FrontierBlockReward)) ∧
    (∀ sched2, sched2.Perm c.getEthashBlockRewardSchedule →
      EthashBlockReward
        (some { c with getEthashBlockRewardSchedule := sched2 }) (some n) =
      EthashBlockReward (some c) (some n)) := by
  refine ⟨fun h1 => ?_, fun h1 h2 => ?_, fun h1 h2 => ⟨fun a r hmem ha hmax => ?_,
    fun hnone => ?_⟩, fun sched2 hperm => ?_⟩
  · simp [EthashBlockReward, EthashBlockRewardCore, h1]
  · simp [EthashBlockReward, EthashBlockRewardCore, h1, h2]
  · have hlen : 0 < c.getEthashBlockRewardSchedule.length :=
      List.length_pos.mpr (List.ne_nil_of_mem hmem)
    simp only [EthashBlockReward, EthashBlockRewardCore, h1, h2,
      Bool.false_eq_true, if_false, if_pos hlen]
    exact schedFoldl_max n.toNat c.getEthashBlockRewardSchedule
      (0, FrontierBlockReward) a r hnd hmem (Nat.zero_le a) (by omega)
      fun p hp hle => hmax p hp (by omega)
  · simp only [EthashBlockReward, EthashBlockRewardCore, h1, h2,
      Bool.false_eq_true, if_false]
    by_cases hlen : 0 < c.getEthashBlockRewardSchedule.length
    · rw [if_pos hlen, schedFoldl_stay n.toNat c.getEthashBlockRewardSchedule
        (0, FrontierBlockReward) fun p hp hcontra => hnone p hp (by omega)]
    · rw [if_neg hlen]
  · have hnd2 : (sched2.map Prod.fst).Nodup :=
      ((hperm.map Prod.fst).nodup_iff).mpr hnd
    have hpw : sched2.Pairwise fun p q => p.1 ≠ q.1 := List.pairwise_map.mp hnd2
    have hcomm : ∀ x ∈ sched2, ∀ y ∈ sched2, ∀ z,
        schedStep n.toNat (schedStep n.toNat z x) y =
        schedStep n.toNat (schedStep n.toNat z y) x := by
      intro x hx y hy z
      by_cases hxy : x = y
      · exact schedStep_comm n.toNat x y (Or.inl hxy) z
      · exact schedStep_comm n.toNat x y
          (Or.inr (hpw.forall (fun p q h => Ne.symm h) hx hy hxy)) z
    simp only [EthashBlockReward, EthashBlockRewardCore]
    rw [hperm.length_eq, List.Perm.foldl_eq' hperm hcomm (0, FrontierBlockReward)]

/-- C1 witness: a concrete configurator whose schedule holds activations
10 and 3 out of order; at block 4 the reward of activation 3 is selected,
and permuting the schedule does not change the result. -/
theorem ethashBlockReward_c1_witness :
    EthashBlockReward
      (some ⟨fun _ => false, fun _ => false, fun _ => false, [(10, 7), (3, 11)], 0⟩)
      (some 4) = 11 ∧
    EthashBlockReward
      (some ⟨fun _ => false, fun _ => false, fun _ => false, [(3, 11), (10, 7)], 0⟩)
      (some 4) =
    EthashBlockReward
      (some ⟨fun _ => false, fun _ => false, fun _ => false, [(10, 7), (3, 11)], 0⟩)
      (some 4) := by
  have h := ethashBlockReward_c1
    ⟨fun _ => false, fun _ => false, fun _ => false, [(10, 7), (3, 11)], 0⟩ 4
    (by decide) (by decide) (by decide)
  exact ⟨(h.2.2.1 rfl rfl).1 3 11 (by decide) (by decide) (by decide),
    h.2.2.2 [(3, 11), (10, 7)] (by decide)⟩

/-!
C2 — the flat path of `GetRewards`.
-/

/-- Unrolling the flat-path uncle loop: the running reward accumulates one
`blockReward / 32` bonus per uncle, and the uncle rewards are the distance
formula in loop order (accumulated reversed, as in the source fold). -/
theorem getRewardsFoldl (bR hn : ℤ) (uncles : List Header) :
    ∀ (w : ℤ) (acc : List ℤ),
    uncles.foldl (getRewardsStep bR hn) (w, acc) =
      (w + uncles.length * (bR / big32),
       (uncles.map fun u => ((u.number + big8 - hn) * bR) / big8).reverse ++ acc) := by
  induction uncles with
  | nil => intro w acc; simp
  | cons u us ih =>
    intro w acc
    rw [List.foldl_cons]
    have hstep : getRewardsStep bR hn (w, acc) u =
        (w + bR / big32, ((u.number + big8 - hn) * bR) / big8 :: acc) := rfl
    rw [hstep, ih]
    simp only [List.map_cons, List.reverse_cons, List.length_cons, Prod.mk.injEq]
    constructor
    · push_cast
      ring
    · simp [List.append_assoc]

/-- C2 counterexample: with the reward schedule `{0 ↦ 3}`, header number
10 and one uncle at number 1, the distance `1 + 8 - 10` is negative and
the code's Euclidean division yields `-1`, while the claimed truncating
division yields 0. -/
theorem getRewards_c2_counterexample :
    (GetRewards ⟨fun _ => false, fun _ => false, fun _ => false, [(0, 3)], 0⟩
      ⟨10⟩ [⟨1⟩]).2 = [-1] ∧
    Int.tdiv ((1 + 8 - 10) * 3) 8 = 0 ∧
    (GetRewards ⟨fun _ => false, fun _ => false, fun _ => false, [(0, 3)], 0⟩
      ⟨10⟩ [⟨1⟩]).2 ≠ [Int.tdiv ((1 + 8 - 10) * 3) 8] := by
  refine ⟨by decide, by decide, by decide⟩

/-- C2 (amended): on the flat path, with `R` the selected block reward,
each uncle's reward is `((u.Number + 8 - h.Number) * R) / 8` under
Euclidean (floor) division — which coincides with truncating division
whenever `u.Number + 8 ≥ h.Number`, in particular for validated uncles —
and the miner reward is `R` plus `⌊R/32⌋` once per included uncle. -/
theorem getRewards_flat_c2 (config : PluginConfigurator) (header : Header)
    (uncles : List Header)
    (hflat : config.isEnabledECIP1017 header.number = false) :
    GetRewards config header uncles =
      (EthashBlockReward (some config) (some header.number) +
        (uncles.length : ℤ) *
          (EthashBlockReward (some config) (some header.number) / 32),
       uncles.map fun u =>
         ((u.number + 8 - header.number) *
           EthashBlockReward (some config) (some header.number)) / 8) := by
  unfold GetRewards
  simp only [hflat, Bool.false_eq_true, if_false]
  rw [getRewardsFoldl]
  simp [big8, big32]

/-- C2 witness: the amended theorem at the Frontier reward with one uncle
at distance 1, hypothesis discharged concretely; the pair evaluates to the
example values `R + R/32` and `R·7/8 · (1/7)`-style distance formula. -/
theorem getRewards_c2_witness :
    GetRewards ⟨fun _ => false, fun _ => false, fun _ => false, [], 0⟩
      ⟨9⟩ [⟨2⟩] = (5156250000000000000, [625000000000000000]) := by
  have h := getRewards_flat_c2
    ⟨fun _ => false, fun _ => false, fun _ => false, [], 0⟩ ⟨9⟩ [⟨2⟩] rfl
  rw [h]
  decide

/-!
C5 — the era (ECIP-1017) path: winner and uncle rewards.
-/

/-- Unrolling the winner-uncles accumulation loop. -/
theorem winnerUnclesFoldl (era bR : ℤ) (uncles : List Header) : ∀ w : ℤ,
    uncles.foldl (fun r _ => r + getEraUncleBlockReward era bR) w =
      w + uncles.length * getEraUncleBlockReward era bR := by
  induction uncles with
  | nil => intro w; simp
  | cons u us ih =>
    intro w
    rw [List.foldl_cons, ih]
    simp only [List.length_cons]
    push_cast
    ring

/-- C5: on the era path with computed era `e` and winner reward
`W = GetBlockWinnerRewardByEra e FrontierBlockReward`, the winner is paid
`W + uncleCount * (W / 32)`; each uncle receives the flat distance formula
when `e = 0` and the distance-independent `W / 32` when `e ≥ 1`. -/
theorem ecip1017_c5 (config : PluginConfigurator) (header : Header)
    (uncles : List Header) :
    (ecip1017BlockReward config header uncles).1 =
      GetBlockWinnerRewardByEra
        (GetBlockEra header.number (config.getEthashECIP1017EraRounds : ℤ))
        FrontierBlockReward +
      (uncles.length : ℤ) *
        (GetBlockWinnerRewardByEra
          (GetBlockEra header.number (config.getEthashECIP1017EraRounds : ℤ))
          FrontierBlockReward / 32) ∧
    (GetBlockEra header.number (config.getEthashECIP1017EraRounds : ℤ) = 0 →
      (ecip1017BlockReward config header uncles).2 =
        uncles.map fun u =>
          ((u.number + 8 - header.number) * FrontierBlockReward) / 8) ∧
    (1 ≤ GetBlockEra header.number (config.getEthashECIP1017EraRounds : ℤ) →
      (ecip1017BlockReward config header uncles).2 =
        uncles.map fun _ =>
          GetBlockWinnerRewardByEra
            (GetBlockEra header.number (config.getEthashECIP1017EraRounds : ℤ))
            FrontierBlockReward / 32) := by
  refine ⟨?_, fun h0 => ?_, fun h1 => ?_⟩
  · simp only [ecip1017BlockReward, GetBlockWinnerRewardForUnclesByEra]
    rw [winnerUnclesFoldl]
    simp [getEraUncleBlockReward, big32]
  · simp only [ecip1017BlockReward]
    rw [h0]
    simp [GetBlockUncleRewardByEra, big8]
  · have hne : ¬(GetBlockEra header.number
        (config.getEthashECIP1017EraRounds : ℤ) = 0) := by omega
    simp only [ecip1017BlockReward]
    simp [GetBlockUncleRewardByEra, hne, getEraUncleBlockReward, big32]

/-- C5 witness: the theorem instantiated in era 0 (block 3, era length 5)
and in era 2 (block 11, era length 5), hypotheses discharged concretely. -/
theorem ecip1017_c5_witness :
    (ecip1017BlockReward ⟨fun _ => false, fun _ => false, fun _ => false, [], 5⟩
      ⟨3⟩ [⟨2⟩]).2 = [4375000000000000000] ∧
    (ecip1017BlockReward ⟨fun _ => false, fun _ => false, fun _ => false, [], 5⟩
      ⟨11⟩ [⟨10⟩]).2 = [100000000000000000] := by
  constructor
  · have h := (ecip1017_c5
      ⟨fun _ => false, fun _ => false, fun _ => false, [], 5⟩ ⟨3⟩ [⟨2⟩]).2.1
      (by decide)
    rw [h]
    decide
  · have h := (ecip1017_c5
      ⟨fun _ => false, fun _ => false, fun _ => false, [], 5⟩ ⟨11⟩ [⟨10⟩]).2.2
      (by decide)
    rw [h]
    decide

/-!
C7 — capacity invariant of the LRU container, and C6 — the order of
`Keys()`.
-/

/-- One `BasicLRU` operation preserves the capacity bound and the stored
capacity. -/
theorem applyLRUOp_len {K V : Type} [DecidableEq K] (c : BasicLRU K V)
    (op : LRUOp K V) (hcap : 1 ≤ c.cap) (h : c.Len ≤ c.cap) :
    (applyLRUOp c op).Len ≤ c.cap ∧ (applyLRUOp c op).cap = c.cap := by
  cases op with
  | add k v =>
    simp only [applyLRUOp, BasicLRU.Add]
    split_ifs with h1 h2
    · obtain ⟨p, hp, hbeq⟩ := List.any_eq_true.mp h1
      have hlen := @List.length_eraseP_of_mem _ c.entries p
        (fun q => q.1 == k) hp hbeq
      have hpos : 0 < c.entries.length := List.length_pos.mpr (List.ne_nil_of_mem hp)
      refine ⟨?_, rfl⟩
      simp only [BasicLRU.Len, List.length_cons, hlen] at h ⊢
      omega
    · refine ⟨?_, rfl⟩
      simp only [BasicLRU.Len, List.length_cons, List.length_dropLast] at h h2 ⊢
      omega
    · refine ⟨?_, rfl⟩
      simp only [BasicLRU.Len, List.length_cons] at h h2 ⊢
      omega
  | get k =>
    simp only [applyLRUOp, BasicLRU.Get]
    cases hf : c.entries.find? (fun p => p.1 == k) with
    | none => exact ⟨h, rfl⟩
    | some p =>
      have hp := List.mem_of_find?_eq_some hf
      have hbeq := List.find?_some hf
      have hlen := @List.length_eraseP_of_mem _ c.entries p
        (fun q => q.1 == k) hp hbeq
      have hpos : 0 < c.entries.length := List.length_pos.mpr (List.ne_nil_of_mem hp)
      refine ⟨?_, rfl⟩
      simp only [BasicLRU.Len, List.length_cons, hlen] at h ⊢
      omega
  | peek k => exact ⟨h, rfl⟩
  | remove k =>
    simp only [applyLRUOp, BasicLRU.Remove]
    split_ifs with h1
    · refine ⟨?_, rfl⟩
      simp only [BasicLRU.Len] at h ⊢
      exact le_trans (List.length_eraseP_le _) h
    · exact ⟨h, rfl⟩
  | removeOldest =>
    simp only [applyLRUOp, BasicLRU.RemoveOldest]
    cases hf : c.entries.getLast? with
    | none => exact ⟨h, rfl⟩
    | some p =>
      refine ⟨?_, rfl⟩
      simp only [BasicLRU.Len, List.length_dropLast] at h ⊢
      omega
  | purge =>
    refine ⟨?_, rfl⟩
    simp [applyLRUOp, BasicLRU.Purge, BasicLRU.Len]

/-- Any sequence of `BasicLRU` operations preserves the capacity bound. -/
theorem runLRUOps_len {K V : Type} [DecidableEq K] :
    ∀ (ops : List (LRUOp K V)) (c : BasicLRU K V),
    1 ≤ c.cap → c.Len ≤ c.cap →
    (runLRUOps ops c).Len ≤ c.cap ∧ (runLRUOps ops c).cap = c.cap
  | [], _, _, h => ⟨h, rfl⟩
  | op :: ops, c, hcap, h => by
    obtain ⟨hl, hc⟩ := applyLRUOp_len c op hcap h
    obtain ⟨hl2, hc2⟩ := runLRUOps_len ops (applyLRUOp c op) (by omega) (by omega)
    have hrun : runLRUOps (op :: ops) c = runLRUOps ops (applyLRUOp c op) := rfl
    rw [hrun]
    exact ⟨by omega, by omega⟩

/-- C7: a requested capacity `c ≤ 0` is coerced to 1, and after every
finite sequence of `Add`, `Get`, `Peek`, `Remove`, `RemoveOldest` and
`Purge` operations from a fresh container, `Len()` never exceeds
`max(c, 1)`. -/
theorem lru_capacity_c7 (K V : Type) [DecidableEq K] (capacity : ℤ)
    (ops : List (LRUOp K V)) :
    ((runLRUOps ops (NewBasicLRU K V capacity)).Len : ℤ) ≤ max capacity 1 ∧
    ((NewBasicLRU K V capacity).cap : ℤ) = max capacity 1 := by
  have hcap : ((NewBasicLRU K V capacity).cap : ℤ) = max capacity 1 := by
    simp only [NewBasicLRU]
    split_ifs with h <;> omega
  have hone : 1 ≤ (NewBasicLRU K V capacity).cap := by
    simp only [NewBasicLRU]
    split_ifs with h <;> omega
  have hzero : (NewBasicLRU K V capacity).Len ≤ (NewBasicLRU K V capacity).cap := by
    simp [NewBasicLRU, BasicLRU.Len]
  have hrun := runLRUOps_len ops (NewBasicLRU K V capacity) hone hzero
  refine ⟨?_, hcap⟩
  have h1 := hrun.1
  omega

/-- C6 counterexample: after adding key 1 then key 2, key 2 is the most
recently used (key 1 is the oldest, as `GetOldest` shows), yet `Keys()`
lists key 1 first — the order is least-recent first, not most-recent
first. -/
theorem keys_c6_counterexample :
    BasicLRU.Keys (((NewBasicLRU ℕ ℕ 4).Add 1 10).2.Add 2 20).2 = [1, 2] ∧
    BasicLRU.Keys (((NewBasicLRU ℕ ℕ 4).Add 1 10).2.Add 2 20).2 ≠ [2, 1] ∧
    BasicLRU.GetOldest (((NewBasicLRU ℕ ℕ 4).Add 1 10).2.Add 2 20).2 =
      some (1, 10) := by
  refine ⟨by decide, by decide, by decide⟩

/-- C6 (amended): `Keys()` returns the keys of all current entries as an
ordered sequence with the least recently used key first and the most
recently used key last: the key just added or just touched by a `Get` hit
appears last, the first key is the one `GetOldest` reports, and membership
in `Keys()` coincides with `Contains`. -/
theorem keys_order_c6 {K V : Type} [DecidableEq K] (c : BasicLRU K V)
    (k : K) (v : V) :
    (BasicLRU.Keys (c.Add k v).2).getLast? = some k ∧
    (c.Contains k = true → (BasicLRU.Keys (c.Get k).2).getLast? = some k) ∧
    (BasicLRU.Keys c).head? = Option.map Prod.fst c.GetOldest ∧
    (∀ x : K, x ∈ BasicLRU.Keys c ↔ c.Contains x = true) := by
  refine ⟨?_, fun hcont => ?_, ?_, fun x => ?_⟩
  · simp only [BasicLRU.Add]
    split_ifs with h1 h2 <;>
      simp [BasicLRU.Keys, listAppendTo, List.getLast?_reverse]
  · simp only [BasicLRU.Get]
    obtain ⟨p, hp, hbeq⟩ := List.any_eq_true.mp hcont
    cases hf : c.entries.find? (fun q => q.1 == k) with
    | none => exact absurd (List.find?_eq_none.mp hf p hp) (by simp [hbeq])
    | some q => simp [BasicLRU.Keys, listAppendTo, List.getLast?_reverse]
  · simp [BasicLRU.Keys, listAppendTo, BasicLRU.GetOldest, List.head?_reverse,
      List.getLast?_map]
  · simp [BasicLRU.Keys, listAppendTo, BasicLRU.Contains, List.any_eq_true,
      List.mem_reverse, List.mem_map, beq_iff_eq]

/-- C6 witness: the amended theorem applied to a concrete container with a
`Get` hit, hypothesis discharged concretely. -/
theorem keys_order_c6_witness :
    BasicLRU.Contains ((NewBasicLRU ℕ ℕ 3).Add 1 7).2 1 = true ∧
    (BasicLRU.Keys (((NewBasicLRU ℕ ℕ 3).Add 1 7).2.Get 1).2).getLast? = some 1 :=
  ⟨by decide, (keys_order_c6 ((NewBasicLRU ℕ ℕ 3).Add 1 7).2 1 7).2.1 (by decide)⟩

/-!
C10 — frame lemmas for the heap embedding: every reward computation
writes only freshly allocated cells, so all pre-existing cells (in
particular the base-reward argument and the shared constants) keep their
values.
-/

/-- The frame relation is reflexive. -/
theorem frameFrom_refl (n0 : ℕ) (s : Heap) : FrameFrom n0 s s :=
  ⟨le_refl _, fun _ _ => rfl⟩

/-- The frame relation is transitive. -/
theorem frameFrom_trans {n0 : ℕ} {s1 s2 s3 : Heap} (h1 : FrameFrom n0 s1 s2)
    (h2 : FrameFrom n0 s2 s3) : FrameFrom n0 s1 s3 :=
  ⟨le_trans h1.1 h2.1, fun x hx => (h2.2 x hx).trans (h1.2 x hx)⟩

/-- The frame relation is antitone in the bound. -/
theorem frameFrom_mono {n0 n1 : ℕ} (h : n0 ≤ n1) {s1 s2 : Heap}
    (hf : FrameFrom n1 s1 s2) : FrameFrom n0 s1 s2 :=
  ⟨hf.1, fun x hx => hf.2 x (lt_of_lt_of_le hx h)⟩

/-- Allocation preserves all cells below the current allocator. -/
theorem frameFrom_halloc (n0 : ℕ) (s : Heap) (v : ℤ) (h : n0 ≤ s.next) :
    FrameFrom n0 s (halloc s v).2 := by
  refine ⟨by simp [halloc], fun x hx => ?_⟩
  simp only [halloc]
  exact if_neg (by omega)

/-- Writing a cell at or above the bound preserves all cells below it. -/
theorem frameFrom_hwrite (n0 : ℕ) (s : Heap) (r : ℕ) (v : ℤ) (h : n0 ≤ r) :
    FrameFrom n0 s (hwrite s r v) := by
  refine ⟨le_refl _, fun x hx => ?_⟩
  simp only [hwrite]
  exact if_neg (by omega)

/-- The allocator of the heap returned by `halloc` advanced by one. -/
theorem halloc_next (s : Heap) (v : ℤ) : (halloc s v).2.next = s.next + 1 := rfl

/-- `halloc` returns the pre-allocation allocator position as the cell. -/
theorem halloc_fst (s : Heap) (v : ℤ) : (halloc s v).1 = s.next := rfl

/-- `hwrite` does not move the allocator. -/
theorem hwrite_next (s : Heap) (r : ℕ) (v : ℤ) : (hwrite s r v).next = s.next := rfl

/-- Extend a frame with one allocation at the end. -/
theorem frameFrom_halloc_of (n0 : ℕ) {s0 s : Heap} (h : FrameFrom n0 s0 s)
    (v : ℤ) (hn : n0 ≤ s0.next) : FrameFrom n0 s0 (halloc s v).2 :=
  frameFrom_trans h (frameFrom_halloc n0 s v (le_trans hn h.1))

/-- Extend a frame with one write at or above the bound at the end. -/
theorem frameFrom_hwrite_of (n0 : ℕ) {s0 s : Heap} (h : FrameFrom n0 s0 s)
    (r : ℕ) (v : ℤ) (hr : n0 ≤ r) : FrameFrom n0 s0 (hwrite s r v) :=
  frameFrom_trans h (frameFrom_hwrite n0 s r v hr)

/-- `GetBlockWinnerRewardByEraH` keeps every pre-existing cell and returns
a freshly allocated cell. -/
theorem winnerByEraH_spec (s : Heap) (era bR : ℕ) :
    FrameFrom s.next s (GetBlockWinnerRewardByEraH s era bR).2 ∧
    s.next ≤ (GetBlockWinnerRewardByEraH s era bR).1 := by
  unfold GetBlockWinnerRewardByEraH
  dsimp only
  split_ifs with h
  · constructor
    · exact frameFrom_halloc_of _
        (frameFrom_halloc_of _ (frameFrom_refl _ _) _ (le_refl _)) _ (le_refl _)
    · simp only [halloc_fst, halloc_next]
      omega
  · constructor
    · refine frameFrom_hwrite_of _ ?_ _ _
        (by simp only [halloc_fst, halloc_next]; omega)
      refine frameFrom_hwrite_of _ ?_ _ _
        (by simp only [halloc_fst, halloc_next]; omega)
      refine frameFrom_hwrite_of _ ?_ _ _
        (by simp only [halloc_fst, halloc_next]; omega)
      refine frameFrom_hwrite_of _ ?_ _ _
        (by simp only [halloc_fst, halloc_next]; omega)
      refine frameFrom_halloc_of _ ?_ _ (le_refl _)
      refine frameFrom_halloc_of _ ?_ _ (le_refl _)
      refine frameFrom_halloc_of _ ?_ _ (le_refl _)
      exact frameFrom_halloc_of _ (frameFrom_refl _ _) _ (le_refl _)
    · simp only [halloc_fst, halloc_next]
      omega

/-- Lift a frame established by a called function over an earlier frame. -/
theorem frameFrom_call_of (n0 : ℕ) {s0 s s2 : Heap} (h : FrameFrom n0 s0 s)
    (hn : n0 ≤ s0.next) (hcall : FrameFrom s.next s s2) : FrameFrom n0 s0 s2 :=
  frameFrom_trans h (frameFrom_mono (le_trans hn h.1) hcall)

/-- `getEraUncleBlockRewardH` keeps every pre-existing cell and returns a
freshly allocated cell. -/
theorem getEraUncleH_spec (s : Heap) (era bR : ℕ) :
    FrameFrom s.next s (getEraUncleBlockRewardH s era bR).2 ∧
    s.next ≤ (getEraUncleBlockRewardH s era bR).1 := by
  unfold getEraUncleBlockRewardH
  dsimp only
  obtain ⟨hf, hret⟩ := winnerByEraH_spec s era bR
  constructor
  · exact frameFrom_halloc_of _ hf _ (le_refl _)
  · simp only [halloc_fst]
    exact hf.1

/-- `GetBlockUncleRewardByEraH` keeps every pre-existing cell and returns
a freshly allocated cell. -/
theorem uncleByEraH_spec (s : Heap) (era hn un bR : ℕ) :
    FrameFrom s.next s (GetBlockUncleRewardByEraH s era hn un bR).2 ∧
    s.next ≤ (GetBlockUncleRewardByEraH s era hn un bR).1 := by
  unfold GetBlockUncleRewardByEraH
  dsimp only
  split_ifs with h
  · constructor
    · refine frameFrom_hwrite_of _ ?_ _ _
        (by simp only [halloc_fst, halloc_next]; omega)
      refine frameFrom_hwrite_of _ ?_ _ _
        (by simp only [halloc_fst, halloc_next]; omega)
      refine frameFrom_hwrite_of _ ?_ _ _
        (by simp only [halloc_fst, halloc_next]; omega)
      refine frameFrom_hwrite_of _ ?_ _ _
        (by simp only [halloc_fst, halloc_next]; omega)
      refine frameFrom_halloc_of _ ?_ _ (le_refl _)
      exact frameFrom_halloc_of _ (frameFrom_refl _ _) _ (le_refl _)
    · simp only [halloc_fst, halloc_next]
      omega
  · obtain ⟨hf, hret⟩ := getEraUncleH_spec (halloc s 0).2 era bR
    constructor
    · exact frameFrom_call_of s.next (frameFrom_halloc s.next s 0 (le_refl _))
        (le_refl _) hf
    · simp only [halloc_next] at hret
      omega

/-- `GetBlockEraH` keeps every pre-existing cell and returns a freshly
allocated cell. -/
theorem getBlockEraH_spec (s : Heap) (bn eL : ℕ) :
    FrameFrom s.next s (GetBlockEraH s bn eL).2 ∧
    s.next ≤ (GetBlockEraH s bn eL).1 := by
  unfold GetBlockEraH
  dsimp only
  split_ifs with h
  · constructor
    · exact frameFrom_halloc_of _ (frameFrom_refl _ _) _ (le_refl _)
    · simp only [halloc_fst]
      omega
  · constructor
    · refine frameFrom_halloc_of _ ?_ _ (le_refl _)
      refine frameFrom_halloc_of _ ?_ _ (le_refl _)
      refine frameFrom_halloc_of _ ?_ _ (le_refl _)
      refine frameFrom_halloc_of _ ?_ _ (le_refl _)
      refine frameFrom_halloc_of _ ?_ _ (le_refl _)
      refine frameFrom_halloc_of _ ?_ _ (le_refl _)
      refine frameFrom_halloc_of _ ?_ _ (le_refl _)
      exact frameFrom_halloc_of _ (frameFrom_refl _ _) _ (le_refl _)
    · simp only [halloc_fst, halloc_next]
      omega

/-- The winner-uncles accumulation loop writes only to the accumulator
cell `r` and to fresh cells. -/
theorem winnerUnclesLoopH_frame (era bR r : ℕ) :
    ∀ (uncles : List ℕ) (s : Heap) (n0 : ℕ), n0 ≤ s.next → n0 ≤ r →
    FrameFrom n0 s (winnerUnclesLoopH era bR r uncles s)
  | [], s, n0, _, _ => frameFrom_refl n0 s
  | _ :: us, s, n0, hs, hr => by
    unfold winnerUnclesLoopH
    dsimp only
    obtain ⟨hf, hret⟩ := getEraUncleH_spec s era bR
    refine frameFrom_trans
      (frameFrom_hwrite_of _ (frameFrom_mono hs hf) _ _ hr)
      (winnerUnclesLoopH_frame era bR r us _ n0 ?_ hr)
    simp only [hwrite_next]
    have := hf.1
    omega

/-- `GetBlockWinnerRewardForUnclesByEraH` keeps every pre-existing cell
and returns a freshly allocated cell. -/
theorem forUnclesH_spec (s : Heap) (era : ℕ) (uncles : List ℕ) (bR : ℕ) :
    FrameFrom s.next s (GetBlockWinnerRewardForUnclesByEraH s era uncles bR).2 ∧
    s.next ≤ (GetBlockWinnerRewardForUnclesByEraH s era uncles bR).1 := by
  unfold GetBlockWinnerRewardForUnclesByEraH
  dsimp only
  constructor
  · refine frameFrom_trans (frameFrom_halloc s.next s 0 (le_refl _))
      (winnerUnclesLoopH_frame era bR _ uncles _ s.next ?_ ?_)
    · simp only [halloc_next]
      omega
    · simp only [halloc_fst]
      omega
  · simp only [halloc_fst]
    omega

/-- The per-uncle loop of `ecip1017BlockRewardH` keeps every pre-existing
cell and returns only fresh cells. -/
theorem ecipUncleLoopH_spec (era hn bR : ℕ) :
    ∀ (uncles : List ℕ) (s : Heap) (n0 : ℕ), n0 ≤ s.next →
    FrameFrom n0 s (ecipUncleLoopH era hn bR uncles s).2 ∧
    (∀ x ∈ (ecipUncleLoopH era hn bR uncles s).1, n0 ≤ x)
  | [], s, n0, _ => by
    unfold ecipUncleLoopH
    exact ⟨frameFrom_refl n0 s, fun x hx => absurd hx (List.not_mem_nil x)⟩
  | u :: us, s, n0, hs => by
    unfold ecipUncleLoopH
    dsimp only
    obtain ⟨hf, hret⟩ := uncleByEraH_spec s era hn u bR
    obtain ⟨hrec, hfresh⟩ := ecipUncleLoopH_spec era hn bR us
      (GetBlockUncleRewardByEraH s era hn u bR).2 n0 (le_trans hs hf.1)
    constructor
    · exact frameFrom_trans (frameFrom_mono hs hf) hrec
    · intro x hx
      rcases List.mem_cons.mp hx with rfl | hx2
      · exact le_trans hs hret
      · exact hfresh x hx2

/-- The flat-path loop of `GetRewardsH` writes only to the scratch cell
`r`, the running reward cell and fresh cells, returning only fresh
cells. -/
theorem getRewardsLoopH_spec (hn bR r rwd : ℕ) :
    ∀ (uncles : List ℕ) (s : Heap) (n0 : ℕ), n0 ≤ s.next → n0 ≤ r → n0 ≤ rwd →
    FrameFrom n0 s (getRewardsLoopH hn bR r rwd uncles s).2 ∧
    (∀ x ∈ (getRewardsLoopH hn bR r rwd uncles s).1, n0 ≤ x)
  | [], s, n0, _, _, _ => by
    unfold getRewardsLoopH
    exact ⟨frameFrom_refl n0 s, fun x hx => absurd hx (List.not_mem_nil x)⟩
  | u :: us, s, n0, hs, hr, hw => by
    unfold getRewardsLoopH
    dsimp only
    set s1 := hwrite s r (hread s u + hread s big8Ref) with hs1
    set s2 := hwrite s1 r (hread s1 r - hread s1 hn) with hs2
    set s3 := hwrite s2 r (hread s2 r * hread s2 bR) with hs3
    set s4 := hwrite s3 r (hread s3 r / hread s3 big8Ref) with hs4
    set a5 := halloc s4 (hread s4 r) with ha5
    set s6 := hwrite a5.2 r (hread a5.2 bR / hread a5.2 big32Ref) with hs6
    set s7 := hwrite s6 rwd (hread s6 rwd + hread s6 r) with hs7
    have e4 : s4.next = s.next := by
      rw [hs4, hwrite_next, hs3, hwrite_next, hs2, hwrite_next, hs1, hwrite_next]
    have e7 : s7.next = s.next + 1 := by
      rw [hs7, hwrite_next, hs6, hwrite_next, ha5, halloc_next, e4]
    have f4 : FrameFrom n0 s s4 := by
      rw [hs4]
      refine frameFrom_hwrite_of _ ?_ _ _ hr
      rw [hs3]
      refine frameFrom_hwrite_of _ ?_ _ _ hr
      rw [hs2]
      refine frameFrom_hwrite_of _ ?_ _ _ hr
      rw [hs1]
      exact frameFrom_hwrite_of _ (frameFrom_refl _ _) _ _ hr
    have f7 : FrameFrom n0 s s7 := by
      rw [hs7]
      refine frameFrom_hwrite_of _ ?_ _ _ hw
      rw [hs6]
      refine frameFrom_hwrite_of _ ?_ _ _ hr
      rw [ha5]
      exact frameFrom_halloc_of _ f4 _ hs
    obtain ⟨hrec, hfresh⟩ := getRewardsLoopH_spec hn bR r rwd us s7 n0 (by omega) hr hw
    constructor
    · exact frameFrom_trans f7 hrec
    · intro x hx
      rcases List.mem_cons.mp hx with rfl | hx2
      · have e5 : a5.1 = s4.next := by rw [ha5, halloc_fst]
        omega
      · exact hfresh x hx2

/-- `ecip1017BlockRewardH` keeps every pre-existing cell — in particular
the shared `FrontierBlockReward` cell it uses as base reward — and returns
only freshly allocated cells. -/
theorem ecip1017H_spec (cfg : PluginConfiguratorH) (s : Heap) (hn : ℕ)
    (uncles : List ℕ) :
    FrameFrom s.next s (ecip1017BlockRewardH cfg s hn uncles).2 ∧
    s.next ≤ (ecip1017BlockRewardH cfg s hn uncles).1.1 ∧
    (∀ x ∈ (ecip1017BlockRewardH cfg s hn uncles).1.2, s.next ≤ x) := by
  unfold ecip1017BlockRewardH
  dsimp only
  set a0 := halloc s (cfg.eraRounds : ℤ) with ha0
  obtain ⟨hE, hEret⟩ := getBlockEraH_spec a0.2 hn a0.1
  set eh := GetBlockEraH a0.2 hn a0.1 with heh
  obtain ⟨hW, hWret⟩ := winnerByEraH_spec eh.2 eh.1 frontierBlockRewardRef
  set wh := GetBlockWinnerRewardByEraH eh.2 eh.1 frontierBlockRewardRef with hwh
  obtain ⟨hU, hUret⟩ := forUnclesH_spec wh.2 eh.1 uncles frontierBlockRewardRef
  set uh := GetBlockWinnerRewardForUnclesByEraH wh.2 eh.1 uncles
    frontierBlockRewardRef with huh
  have n1 : s.next ≤ a0.2.next := by
    rw [ha0, halloc_next]
    omega
  have n2 : s.next ≤ eh.2.next := le_trans n1 hE.1
  have n3 : s.next ≤ wh.2.next := le_trans n2 hW.1
  have n4 : s.next ≤ uh.2.next := le_trans n3 hU.1
  have hwr : s.next ≤ wh.1 := le_trans n2 hWret
  have fA : FrameFrom s.next s a0.2 := by
    rw [ha0]
    exact frameFrom_halloc _ _ _ (le_refl _)
  have fE : FrameFrom s.next s eh.2 := frameFrom_trans fA (frameFrom_mono n1 hE)
  have fW : FrameFrom s.next s wh.2 := frameFrom_trans fE (frameFrom_mono n2 hW)
  have fU : FrameFrom s.next s uh.2 := frameFrom_trans fW (frameFrom_mono n3 hU)
  have f5 : FrameFrom s.next s
      (hwrite uh.2 wh.1 (hread uh.2 wh.1 + hread uh.2 uh.1)) :=
    frameFrom_hwrite_of _ fU _ _ hwr
  have n5 : s.next ≤
      (hwrite uh.2 wh.1 (hread uh.2 wh.1 + hread uh.2 uh.1)).next := by
    rw [hwrite_next]
    exact n4
  obtain ⟨hL, hLfresh⟩ := ecipUncleLoopH_spec eh.1 hn frontierBlockRewardRef
    uncles (hwrite uh.2 wh.1 (hread uh.2 wh.1 + hread uh.2 uh.1)) s.next n5
  exact ⟨frameFrom_trans f5 hL, hwr, hLfresh⟩

/-- `GetRewardsH` keeps every pre-existing cell — in particular whichever
shared cell `EthashBlockReward` selected as the block reward — and returns
only freshly allocated cells. -/
theorem getRewardsH_spec (cfg : PluginConfiguratorH) (s : Heap) (hn : ℕ)
    (uncles : List ℕ) :
    FrameFrom s.next s (GetRewardsH cfg s hn uncles).2 ∧
    s.next ≤ (GetRewardsH cfg s hn uncles).1.1 ∧
    (∀ x ∈ (GetRewardsH cfg s hn uncles).1.2, s.next ≤ x) := by
  unfold GetRewardsH
  dsimp only
  split_ifs with h
  · exact ecip1017H_spec cfg s hn uncles
  · set bRef := ethashBlockRewardRefH cfg s hn with hbRef
    set a0 := halloc s (hread s bRef) with ha0
    set a1 := halloc a0.2 0 with ha1
    have e0 : a0.1 = s.next := by rw [ha0, halloc_fst]
    have e1 : a1.1 = s.next + 1 := by rw [ha1, halloc_fst, ha0, halloc_next]
    have e2 : a1.2.next = s.next + 2 := by
      rw [ha1, halloc_next, ha0, halloc_next]
    obtain ⟨hrec, hfresh⟩ := getRewardsLoopH_spec hn bRef a1.1 a0.1 uncles a1.2
      s.next (by omega) (by omega) (by omega)
    dsimp only
    refine ⟨?_, by omega, hfresh⟩
    refine frameFrom_trans ?_ hrec
    rw [ha1]
    refine frameFrom_halloc_of _ ?_ _ (le_refl _)
    rw [ha0]
    exact frameFrom_halloc_of _ (frameFrom_refl _ _) _ (le_refl _)

/-!
The C10 claim theorem.
-/

/-- C10: in the heap embedding, `GetRewards`, `ecip1017BlockReward`,
`GetBlockWinnerRewardByEra`, `GetBlockWinnerRewardForUnclesByEra` and
`GetBlockUncleRewardByEra` leave every pre-existing cell unchanged — in
particular the cell passed as the base block reward and the shared
`FrontierBlockReward` cell have the same value before and after every call
— and return only freshly allocated cells. -/
theorem rewards_no_mutation_c10 :
    (∀ (s : Heap) (era bR x : ℕ), x < s.next →
      (GetBlockWinnerRewardByEraH s era bR).2.mem x = s.mem x ∧
      s.next ≤ (GetBlockWinnerRewardByEraH s era bR).1) ∧
    (∀ (s : Heap) (era : ℕ) (uncles : List ℕ) (bR x : ℕ), x < s.next →
      (GetBlockWinnerRewardForUnclesByEraH s era uncles bR).2.mem x = s.mem x ∧
      s.next ≤ (GetBlockWinnerRewardForUnclesByEraH s era uncles bR).1) ∧
    (∀ (s : Heap) (era hn un bR x : ℕ), x < s.next →
      (GetBlockUncleRewardByEraH s era hn un bR).2.mem x = s.mem x ∧
      s.next ≤ (GetBlockUncleRewardByEraH s era hn un bR).1) ∧
    (∀ (cfg : PluginConfiguratorH) (s : Heap) (hn : ℕ) (uncles : List ℕ) (x : ℕ),
      x < s.next →
      (ecip1017BlockRewardH cfg s hn uncles).2.mem x = s.mem x ∧
      s.next ≤ (ecip1017BlockRewardH cfg s hn uncles).1.1 ∧
      (∀ y ∈ (ecip1017BlockRewardH cfg s hn uncles).1.2, s.next ≤ y)) ∧
    (∀ (cfg : PluginConfiguratorH) (s : Heap) (hn : ℕ) (uncles : List ℕ) (x : ℕ),
      x < s.next →
      (GetRewardsH cfg s hn uncles).2.mem x = s.mem x ∧
      s.next ≤ (GetRewardsH cfg s hn uncles).1.1 ∧
      (∀ y ∈ (GetRewardsH cfg s hn uncles).1.2, s.next ≤ y)) := by
  refine ⟨fun s era bR x hx => ?_, fun s era uncles bR x hx => ?_,
    fun s era hn un bR x hx => ?_, fun cfg s hn uncles x hx => ?_,
    fun cfg s hn uncles x hx => ?_⟩
  · obtain ⟨hf, hret⟩ := winnerByEraH_spec s era bR
    exact ⟨hf.2 x hx, hret⟩
  · obtain ⟨hf, hret⟩ := forUnclesH_spec s era uncles bR
    exact ⟨hf.2 x hx, hret⟩
  · obtain ⟨hf, hret⟩ := uncleByEraH_spec s era hn un bR
    exact ⟨hf.2 x hx, hret⟩
  · obtain ⟨hf, hret, hfresh⟩ := ecip1017H_spec cfg s hn uncles
    exact ⟨hf.2 x hx, hret, hfresh⟩
  · obtain ⟨hf, hret, hfresh⟩ := getRewardsH_spec cfg s hn uncles
    exact ⟨hf.2 x hx, hret, hfresh⟩

/-- C10 witness: on a concrete heap of seven zero-valued global cells, the
`FrontierBlockReward` cell (index 4) is unchanged by each of the five
reward computations. -/
theorem rewards_no_mutation_c10_witness :
    (GetBlockWinnerRewardByEraH ⟨fun _ => 0, 7⟩ 4
      frontierBlockRewardRef).2.mem frontierBlockRewardRef =
      Heap.mem ⟨fun _ => 0, 7⟩ frontierBlockRewardRef ∧
    (GetBlockWinnerRewardForUnclesByEraH ⟨fun _ => 0, 7⟩ 4 [5, 6]
      frontierBlockRewardRef).2.mem frontierBlockRewardRef =
      Heap.mem ⟨fun _ => 0, 7⟩ frontierBlockRewardRef ∧
    (GetBlockUncleRewardByEraH ⟨fun _ => 0, 7⟩ 4 5 6
      frontierBlockRewardRef).2.mem frontierBlockRewardRef =
      Heap.mem ⟨fun _ => 0, 7⟩ frontierBlockRewardRef ∧
    (ecip1017BlockRewardH ⟨fun _ => false, fun _ => false, fun _ => false, [], 5⟩
      ⟨fun _ => 0, 7⟩ 5 [6]).2.mem frontierBlockRewardRef =
      Heap.mem ⟨fun _ => 0, 7⟩ frontierBlockRewardRef ∧
    (GetRewardsH ⟨fun _ => false, fun _ => false, fun _ => false, [], 5⟩
      ⟨fun _ => 0, 7⟩ 5 [6]).2.mem frontierBlockRewardRef =
      Heap.mem ⟨fun _ => 0, 7⟩ frontierBlockRewardRef := by
  have h := rewards_no_mutation_c10
  exact ⟨(h.1 ⟨fun _ => 0, 7⟩ 4 frontierBlockRewardRef frontierBlockRewardRef
      (by decide)).1,
    (h.2.1 ⟨fun _ => 0, 7⟩ 4 [5, 6] frontierBlockRewardRef frontierBlockRewardRef
      (by decide)).1,
    (h.2.2.1 ⟨fun _ => 0, 7⟩ 4 5 6 frontierBlockRewardRef frontierBlockRewardRef
      (by decide)).1,
    (h.2.2.2.1 ⟨fun _ => false, fun _ => false, fun _ => false, [], 5⟩
      ⟨fun _ => 0, 7⟩ 5 [6] frontierBlockRewardRef (by decide)).1,
    (h.2.2.2.2 ⟨fun _ => false, fun _ => false, fun _ => false, [], 5⟩
      ⟨fun _ => 0, 7⟩ 5 [6] frontierBlockRewardRef (by decide)).1⟩

end Plugeth
